import Mathlib

/-!
Verification of the path-identity utilities (`src/system/path.ts`) and the
provider/cache layer (`src/git/gitProvider.ts`) of the repository.
JavaScript strings are modelled as lists of characters; the platform flags
`isWindows` and `isLinux` are explicit boolean parameters.
-/

namespace GitLens

/-- Character translation performed by the global replacement of the
backslash separator with the forward slash (`pathNormalizeRegex`). -/
def toSlash (c : Char) : Char := if c = '\\' then '/' else c

/-- Drive-letter lowercasing at a fixed position: an uppercase letter
followed by a colon and a slash is lowercased; anything else is unchanged. -/
def driveLowerAt (l : List Char) : List Char :=
  match l with
  | a :: b :: c :: rest =>
    if a.isUpper = true ∧ b = ':' ∧ c = '/' then a.toLower :: b :: c :: rest
    else a :: b :: c :: rest
  | _ => l

/-- Embedding of `driveLetterNormalizeRegex` replacement: lowercases an
uppercase drive letter at the start of the path (after an optional leading
slash) when it is followed by a colon and a slash. -/
def driveLower (l : List Char) : List Char :=
  match l with
  | [] => []
  | a :: rest => if a = '/' then a :: driveLowerAt rest else driveLowerAt (a :: rest)

/-- Removal of one trailing separator: the last character is dropped when it
is a forward slash. -/
def stripTrailingSlash (l : List Char) : List Char :=
  if l.getLast? = some '/' then l.dropLast else l

/-- Embedding of `normalizePath`: empty strings pass through, backslashes
become forward slashes, one trailing separator is stripped, and on Windows
the drive letter is lowercased. -/
def normalizePath (isWin : Bool) (p : List Char) : List Char :=
  if p = [] then p
  else if isWin then driveLower (stripTrailingSlash (p.map toSlash))
  else stripTrailingSlash (p.map toSlash)

/-! Character-level facts about ASCII lowercasing. -/

theorem isUpper_toNat_bounds (c : Char) (h : c.isUpper = true) :
    65 ≤ c.toNat ∧ c.toNat ≤ 90 := by
  simpa [Char.isUpper] using h

theorem toLower_toNat (c : Char) (h : c.isUpper = true) :
    (c.toLower).toNat = c.toNat + 32 := by
  obtain ⟨h1, h2⟩ := isUpper_toNat_bounds c h
  rw [Char.toLower, if_pos ⟨h1, h2⟩]
  rw [Char.ofNat, dif_pos (Or.inl (by omega : c.toNat + 32 < 0xd800))]
  simp [Char.ofNatAux, Char.toNat, UInt32.toNat, BitVec.toNat_ofNatLt]

theorem isUpper_eq_false_of_toNat (x : Char) (h : 90 < x.toNat) : x.isUpper = false := by
  simp only [Char.isUpper, Bool.and_eq_false_iff]
  right
  simp only [decide_eq_false_iff_not]
  intro hle
  have := UInt32.toNat_le_of_le (by decide : (90 : Nat) < UInt32.size) hle
  simp [Char.toNat] at h
  omega

theorem toLower_not_upper (c : Char) (h : c.isUpper = true) :
    (c.toLower).isUpper = false := by
  refine isUpper_eq_false_of_toNat _ ?_
  rw [toLower_toNat c h]
  obtain ⟨h1, _⟩ := isUpper_toNat_bounds c h
  omega

theorem toLower_ne_of_toNat (c : Char) (h : c.isUpper = true) (d : Char)
    (hd : d.toNat < 97) : c.toLower ≠ d := by
  intro he
  have ht := toLower_toNat c h
  obtain ⟨h1, _⟩ := isUpper_toNat_bounds c h
  rw [he] at ht
  omega

/-! Structural facts about `driveLowerAt` and `driveLower`. -/

theorem driveLowerAt_getLast? (l : List Char) :
    (driveLowerAt l).getLast? = l.getLast? := by
  rcases l with _ | ⟨a, _ | ⟨b, _ | ⟨c, rest⟩⟩⟩
  · rfl
  · rfl
  · rfl
  · simp only [driveLowerAt]
    split_ifs with hc
    · simp [List.getLast?_cons_cons]
    · rfl

theorem driveLowerAt_noBS (l : List Char) (h : '\\' ∉ l) : '\\' ∉ driveLowerAt l := by
  rcases l with _ | ⟨a, _ | ⟨b, _ | ⟨c, rest⟩⟩⟩
  · exact h
  · exact h
  · exact h
  · simp only [driveLowerAt]
    split_ifs with hc
    · intro hmem
      rcases List.mem_cons.mp hmem with heq | hrest
      · exact toLower_ne_of_toNat a hc.1 '\\' (by decide) heq.symm
      · exact h (List.mem_cons_of_mem _ hrest)
    · exact h

theorem driveLowerAt_idem (l : List Char) :
    driveLowerAt (driveLowerAt l) = driveLowerAt l := by
  rcases l with _ | ⟨a, _ | ⟨b, _ | ⟨c, rest⟩⟩⟩
  · rfl
  · rfl
  · rfl
  · simp only [driveLowerAt]
    split_ifs with hc
    · simp only [driveLowerAt]
      rw [if_neg]
      intro hc2
      rw [toLower_not_upper a hc.1] at hc2
      exact absurd hc2.1 (by simp)
    · simp only [driveLowerAt]
      rw [if_neg hc]

theorem driveLowerAt_head_ne_slash (a : Char) (rest : List Char) (ha : a ≠ '/') :
    ∃ a2 rest2, driveLowerAt (a :: rest) = a2 :: rest2 ∧ a2 ≠ '/' := by
  rcases rest with _ | ⟨b, _ | ⟨c, rest2⟩⟩
  · exact ⟨a, [], rfl, ha⟩
  · exact ⟨a, [b], rfl, ha⟩
  · simp only [driveLowerAt]
    split_ifs with hc
    · exact ⟨a.toLower, b :: c :: rest2, rfl,
        toLower_ne_of_toNat a hc.1 '/' (by decide)⟩
    · exact ⟨a, b :: c :: rest2, rfl, ha⟩

theorem driveLowerAt_ne_nil (a : Char) (rest : List Char) :
    driveLowerAt (a :: rest) ≠ [] := by
  rcases rest with _ | ⟨b, _ | ⟨c, rest2⟩⟩
  · simp [driveLowerAt]
  · simp [driveLowerAt]
  · simp only [driveLowerAt]
    split_ifs with hc <;> simp

theorem driveLower_getLast? (l : List Char) :
    (driveLower l).getLast? = l.getLast? := by
  rcases l with _ | ⟨a, rest⟩
  · rfl
  · simp only [driveLower]
    split_ifs with ha
    · rcases rest with _ | ⟨b, bs⟩
      · rfl
      · have h1 := driveLowerAt_getLast? (b :: bs)
        rcases hshape : driveLowerAt (b :: bs) with _ | ⟨d, ds⟩
        · exact absurd hshape (driveLowerAt_ne_nil b bs)
        · rw [List.getLast?_cons_cons, List.getLast?_cons_cons]
          rw [hshape] at h1
          exact h1
    · exact driveLowerAt_getLast? (a :: rest)

theorem driveLower_noBS (l : List Char) (h : '\\' ∉ l) : '\\' ∉ driveLower l := by
  rcases l with _ | ⟨a, rest⟩
  · exact h
  · simp only [driveLower]
    split_ifs with ha
    · intro hmem
      rcases List.mem_cons.mp hmem with heq | hrest
      · rw [ha] at heq
        exact absurd heq (by decide)
      · exact driveLowerAt_noBS rest (fun hx => h (List.mem_cons_of_mem _ hx)) hrest
    · exact driveLowerAt_noBS (a :: rest) h

theorem driveLower_idem (l : List Char) : driveLower (driveLower l) = driveLower l := by
  rcases l with _ | ⟨a, rest⟩
  · rfl
  · simp only [driveLower]
    split_ifs with ha
    · simp only [driveLower]
      rw [if_pos ha, driveLowerAt_idem]
    · obtain ⟨a2, rest2, hshape, ha2⟩ := driveLowerAt_head_ne_slash a rest ha
      rw [hshape]
      simp only [driveLower]
      rw [if_neg ha2, ← hshape, driveLowerAt_idem]

/-! Facts about separator conversion and trailing-separator stripping. -/

theorem toSlash_ne_bs (c : Char) : toSlash c ≠ '\\' := by
  unfold toSlash
  split_ifs with hc
  · decide
  · exact hc

theorem noBS_map_toSlash (l : List Char) : '\\' ∉ l.map toSlash := by
  intro hmem
  obtain ⟨x, _, hx⟩ := List.mem_map.mp hmem
  exact toSlash_ne_bs x hx

theorem map_toSlash_eq_self (l : List Char) (h : '\\' ∉ l) : l.map toSlash = l := by
  induction l with
  | nil => rfl
  | cons a t ih =>
    have ha : a ≠ '\\' := fun he => h (he ▸ List.mem_cons_self a t)
    simp only [List.map_cons, toSlash, if_neg ha]
    rw [ih (fun hx => h (List.mem_cons_of_mem _ hx))]

theorem stripTrailingSlash_eq_self (l : List Char) (h : l.getLast? ≠ some '/') :
    stripTrailingSlash l = l := by
  unfold stripTrailingSlash
  rw [if_neg h]

theorem noBS_stripTrailingSlash (l : List Char) (h : '\\' ∉ l) :
    '\\' ∉ stripTrailingSlash l := by
  unfold stripTrailingSlash
  split_ifs with hl
  · exact fun hx => h ((List.dropLast_sublist l).subset hx)
  · exact h

theorem stripTrailingSlash_getLast? (l : List Char) (h : ¬ ['/', '/'] <:+ l) :
    (stripTrailingSlash l).getLast? ≠ some '/' := by
  unfold stripTrailingSlash
  split_ifs with hl
  · intro hd
    have hne : l ≠ [] := by
      intro he
      rw [he] at hl
      exact absurd hl (by simp)
    have hne2 : l.dropLast ≠ [] := by
      intro he
      rw [he] at hd
      exact absurd hd (by simp)
    have e1 : l.dropLast.dropLast ++ [l.dropLast.getLast hne2] = l.dropLast :=
      List.dropLast_append_getLast hne2
    have e2 : l.dropLast ++ [l.getLast hne] = l := List.dropLast_append_getLast hne
    have g1 : l.getLast hne = '/' := by
      rw [List.getLast?_eq_getLast l hne] at hl
      exact Option.some_injective _ hl
    have g2 : l.dropLast.getLast hne2 = '/' := by
      rw [List.getLast?_eq_getLast _ hne2] at hd
      exact Option.some_injective _ hd
    refine h ?_
    rw [← e2, ← e1, g1, g2, List.append_assoc]
    exact List.suffix_append _ _
  · exact hl

/-- Core stability fact: the output of `normalizePath` is a fixed point of
`normalizePath` whenever the separator-converted input does not end in a
double separator. -/
theorem normalizePath_fixed (isWin : Bool) (p : List Char)
    (h : ¬ ['/', '/'] <:+ p.map toSlash) :
    normalizePath isWin (normalizePath isWin p) = normalizePath isWin p := by
  have hq : '\\' ∉ p.map toSlash := noBS_map_toSlash p
  have hrBS : '\\' ∉ stripTrailingSlash (p.map toSlash) :=
    noBS_stripTrailingSlash _ hq
  have hrLast : (stripTrailingSlash (p.map toSlash)).getLast? ≠ some '/' :=
    stripTrailingSlash_getLast? _ h
  by_cases hp : p = []
  · subst hp
    cases isWin <;> rfl
  · cases isWin with
    | false =>
      have h1 : normalizePath false p = stripTrailingSlash (p.map toSlash) := by
        unfold normalizePath
        rw [if_neg hp, if_neg (by simp : ¬ (false = true))]
      rw [h1]
      by_cases hn : stripTrailingSlash (p.map toSlash) = []
      · rw [hn]
        rfl
      · unfold normalizePath
        rw [if_neg hn, if_neg (by simp : ¬ (false = true)),
          map_toSlash_eq_self _ hrBS, stripTrailingSlash_eq_self _ hrLast]
    | true =>
      have h1 : normalizePath true p =
          driveLower (stripTrailingSlash (p.map toSlash)) := by
        unfold normalizePath
        rw [if_neg hp, if_pos rfl]
      rw [h1]
      have hnBS : '\\' ∉ driveLower (stripTrailingSlash (p.map toSlash)) :=
        driveLower_noBS _ hrBS
      have hnLast :
          (driveLower (stripTrailingSlash (p.map toSlash))).getLast? ≠ some '/' := by
        rw [driveLower_getLast?]
        exact hrLast
      by_cases hn : driveLower (stripTrailingSlash (p.map toSlash)) = []
      · rw [hn]
        rfl
      · unfold normalizePath
        rw [if_neg hn, if_pos rfl, map_toSlash_eq_self _ hnBS,
          stripTrailingSlash_eq_self _ hnLast, driveLower_idem]

/-- C1 counterexample: `normalizePath` is not idempotent on the path `"//"`;
one application yields `"/"`, a second application yields the empty string. -/
theorem normalizePath_not_idem_cex :
    normalizePath false (normalizePath false ("//".toList)) ≠
      normalizePath false ("//".toList) := by decide

/-- C1 (amended): normalizePath(normalizePath(p)) == normalizePath(p) for
every path string p whose backslash-to-slash converted form does not end in
two consecutive separators. (For a path ending in several separators each
application strips exactly one of them, so full idempotence fails.) -/
theorem normalizePath_idem_of_no_double_sep (isWin : Bool) (p : List Char)
    (h : ¬ ['/', '/'] <:+ p.map toSlash) :
    normalizePath isWin (normalizePath isWin p) = normalizePath isWin p :=
  normalizePath_fixed isWin p h

/-- Witness for the amended C1 theorem at a concrete input. -/
theorem normalizePath_idem_witness :
    normalizePath true (normalizePath true ("C:\\a\\b/".toList)) =
      normalizePath true ("C:\\a\\b/".toList) :=
  normalizePath_idem_of_no_double_sep true ("C:\\a\\b/".toList) (by decide)

/-- C6: on a drive-letter platform, normalizing a Windows-style path converts
backslashes, strips the single trailing separator and lowercases the drive
letter. -/
theorem normalizePath_windows_scenario :
    normalizePath true ("C:\\Users\\Bob\\repo\\".toList) =
      ("c:/Users/Bob/repo".toList) := by decide

/-! Embedding of `commonBaseIndex`. -/

/-- Loop body of `commonBaseIndex`: walk both strings in step, break on the
first mismatch (including running past the end of the second string), and
remember the position of the last delimiter seen while still matching. -/
def commonBaseLoop (delim : Char) : List Char → List Char → Nat → Nat → Nat
  | [], _, _, index => index
  | _ :: _, [], _, index => index
  | c1 :: t1, c2 :: t2, i, index =>
    if c1 = c2 then commonBaseLoop delim t1 t2 (i + 1) (if c1 = delim then i else index)
    else index

/-- Embedding of `commonBaseIndex`: returns 0 when either string is empty;
otherwise lowercases both strings when `ignoreCase` is set (defaulting to
the negation of the Linux flag) and runs the scanning loop. -/
def commonBaseIndex (isLinux : Bool) (s1 s2 : List Char) (delim : Char)
    (ignoreCase : Option Bool) : Nat :=
  if s1.length = 0 ∨ s2.length = 0 then 0
  else
    commonBaseLoop delim
      (if ignoreCase.getD (!isLinux) then s1.map Char.toLower else s1)
      (if ignoreCase.getD (!isLinux) then s2.map Char.toLower else s2)
      0 0

/-- Comparison string used by `commonBaseIndex`, spelling out the claim's
case rule: case-insensitive when `ignoreCase` is true, case-sensitive when it
is false, and when absent case-insensitive exactly on non-Linux platforms. -/
def caseFolded (isLinux : Bool) (ignoreCase : Option Bool) (s : List Char) : List Char :=
  if ignoreCase.getD (!isLinux) then s.map Char.toLower else s

/-- Length of the longest common prefix of two strings: the scan region of
the loop, which stops at the first mismatch or at the end of either string. -/
def lcpLength : List Char → List Char → Nat
  | c1 :: t1, c2 :: t2 => if c1 = c2 then lcpLength t1 t2 + 1 else 0
  | _, _ => 0

/-- Position of the last delimiter inside the common matched prefix, when one
exists. -/
def maxDelimPos (delim : Char) : List Char → List Char → Option Nat
  | c1 :: t1, c2 :: t2 =>
    if c1 = c2 then
      match maxDelimPos delim t1 t2 with
      | some j => some (j + 1)
      | none => if c1 = delim then some 0 else none
    else none
  | _, _ => none

theorem commonBaseLoop_eq_maxDelimPos (delim : Char) (t1 t2 : List Char) :
    ∀ i index, commonBaseLoop delim t1 t2 i index =
      (match maxDelimPos delim t1 t2 with
       | some j => i + j
       | none => index) := by
  induction t1 generalizing t2 with
  | nil =>
    intro i index
    cases t2 <;> rfl
  | cons c1 t1 ih =>
    intro i index
    cases t2 with
    | nil => rfl
    | cons c2 t2 =>
      by_cases hc : c1 = c2
      · simp only [commonBaseLoop, maxDelimPos, if_pos hc]
        rw [ih t2 (i + 1) (if c1 = delim then i else index)]
        cases hm : maxDelimPos delim t1 t2 with
        | some j => simp [Nat.add_assoc, Nat.add_comm 1 j]
        | none =>
          by_cases hd : c1 = delim
          · simp [hd]
          · simp [hd]
      · simp only [commonBaseLoop, maxDelimPos, if_neg hc]

theorem maxDelimPos_some_spec (delim : Char) (t1 t2 : List Char) (j : Nat)
    (hm : maxDelimPos delim t1 t2 = some j) :
    j < lcpLength t1 t2 ∧ t1.get? j = some delim := by
  induction t1 generalizing t2 j with
  | nil => cases t2 <;> simp [maxDelimPos] at hm
  | cons c1 t1 ih =>
    cases t2 with
    | nil => simp [maxDelimPos] at hm
    | cons c2 t2 =>
      by_cases hc : c1 = c2
      · simp only [maxDelimPos, if_pos hc] at hm
        simp only [lcpLength, if_pos hc]
        cases hm2 : maxDelimPos delim t1 t2 with
        | some j2 =>
          rw [hm2] at hm
          simp only [Option.some_inj] at hm
          obtain ⟨hlt, hget⟩ := ih t2 j2 hm2
          subst hm
          refine ⟨by omega, ?_⟩
          simpa using hget
        | none =>
          rw [hm2] at hm
          by_cases hd : c1 = delim
          · simp only [if_pos hd, Option.some_inj] at hm
            subst hm
            simp [hd]
          · simp [if_neg hd] at hm
      · simp [maxDelimPos, if_neg hc] at hm

theorem maxDelimPos_none_iff (delim : Char) (t1 t2 : List Char) :
    maxDelimPos delim t1 t2 = none ↔
      ∀ i, i < lcpLength t1 t2 → t1.get? i ≠ some delim := by
  induction t1 generalizing t2 with
  | nil =>
    cases t2 <;> simp [maxDelimPos, lcpLength]
  | cons c1 t1 ih =>
    cases t2 with
    | nil => simp [maxDelimPos, lcpLength]
    | cons c2 t2 =>
      by_cases hc : c1 = c2
      · simp only [maxDelimPos, lcpLength, if_pos hc]
        cases hm2 : maxDelimPos delim t1 t2 with
        | some j2 =>
          obtain ⟨hlt, hget⟩ := maxDelimPos_some_spec delim t1 t2 j2 hm2
          constructor
          · intro hm
            simp at hm
          · intro hall
            have := hall (j2 + 1) (by omega)
            exact absurd (by simpa using hget) this
        | none =>
          by_cases hd : c1 = delim
          · simp only [if_pos hd]
            constructor
            · intro hm
              simp at hm
            · intro hall
              exact absurd hd (by simpa using hall 0 (by omega))
          · simp only [if_neg hd]
            constructor
            · intro _ i hi
              cases i with
              | zero => simpa using hd
              | succ i =>
                have hi2 : i < lcpLength t1 t2 := by omega
                simpa using (ih t2).mp hm2 i hi2
            · intro _
              trivial
      · simp [maxDelimPos, lcpLength, if_neg hc]

theorem maxDelimPos_maximal (delim : Char) (t1 t2 : List Char) (j : Nat)
    (hm : maxDelimPos delim t1 t2 = some j) :
    ∀ k, k < lcpLength t1 t2 → t1.get? k = some delim → k ≤ j := by
  induction t1 generalizing t2 j with
  | nil => cases t2 <;> simp [maxDelimPos] at hm
  | cons c1 t1 ih =>
    cases t2 with
    | nil => simp [maxDelimPos] at hm
    | cons c2 t2 =>
      by_cases hc : c1 = c2
      · simp only [maxDelimPos, if_pos hc] at hm
        intro k hk hget
        simp only [lcpLength, if_pos hc] at hk
        cases hm2 : maxDelimPos delim t1 t2 with
        | some j2 =>
          rw [hm2] at hm
          simp only [Option.some_inj] at hm
          subst hm
          cases k with
          | zero => omega
          | succ k =>
            have := ih t2 j2 hm2 k (by omega) (by simpa using hget)
            omega
        | none =>
          rw [hm2] at hm
          by_cases hd : c1 = delim
          · simp only [if_pos hd, Option.some_inj] at hm
            subst hm
            cases k with
            | zero => omega
            | succ k =>
              have hno := (maxDelimPos_none_iff delim t1 t2).mp hm2 k (by omega)
              exact absurd (by simpa using hget) hno
          · simp [if_neg hd] at hm
      · intro k hk
        simp [lcpLength, if_neg hc] at hk

/-- C2: `commonBaseIndex` returns 0 when either string is empty; otherwise,
over the case-folded strings (case-insensitive by default except on Linux,
overridden by the `ignoreCase` argument), it returns the index of the last
delimiter position inside the common matched prefix — the scan stopping at
the first mismatch or string end — and 0 when no such delimiter exists. -/
theorem commonBaseIndex_spec (isLinux : Bool) (s1 s2 : List Char) (delim : Char)
    (ignoreCase : Option Bool) :
    (s1 = [] ∨ s2 = [] → commonBaseIndex isLinux s1 s2 delim ignoreCase = 0) ∧
    (s1 ≠ [] → s2 ≠ [] →
      ((∀ i, i < lcpLength (caseFolded isLinux ignoreCase s1)
            (caseFolded isLinux ignoreCase s2) →
          (caseFolded isLinux ignoreCase s1).get? i ≠ some delim) →
        commonBaseIndex isLinux s1 s2 delim ignoreCase = 0) ∧
      (∀ j, j < lcpLength (caseFolded isLinux ignoreCase s1)
            (caseFolded isLinux ignoreCase s2) →
        (caseFolded isLinux ignoreCase s1).get? j = some delim →
          commonBaseIndex isLinux s1 s2 delim ignoreCase <
              lcpLength (caseFolded isLinux ignoreCase s1)
                (caseFolded isLinux ignoreCase s2) ∧
            (caseFolded isLinux ignoreCase s1).get?
                (commonBaseIndex isLinux s1 s2 delim ignoreCase) = some delim ∧
            j ≤ commonBaseIndex isLinux s1 s2 delim ignoreCase)) := by
  constructor
  · intro hor
    unfold commonBaseIndex
    rw [if_pos]
    rcases hor with h1 | h2
    · exact Or.inl (by simp [h1])
    · exact Or.inr (by simp [h2])
  · intro h1 h2
    have hne : ¬ (s1.length = 0 ∨ s2.length = 0) := by
      simp [List.length_eq_zero, h1, h2]
    have hval : commonBaseIndex isLinux s1 s2 delim ignoreCase =
        (match maxDelimPos delim (caseFolded isLinux ignoreCase s1)
            (caseFolded isLinux ignoreCase s2) with
         | some j => j
         | none => 0) := by
      unfold commonBaseIndex caseFolded
      rw [if_neg hne,
        commonBaseLoop_eq_maxDelimPos delim _ _ 0 0]
      cases maxDelimPos delim
          (if ignoreCase.getD (!isLinux) then s1.map Char.toLower else s1)
          (if ignoreCase.getD (!isLinux) then s2.map Char.toLower else s2) <;> simp
    constructor
    · intro hno
      rw [hval, (maxDelimPos_none_iff delim _ _).mpr hno]
    · intro j hj hget
      cases hm : maxDelimPos delim (caseFolded isLinux ignoreCase s1)
          (caseFolded isLinux ignoreCase s2) with
      | none =>
        exact absurd hget ((maxDelimPos_none_iff delim _ _).mp hm j hj)
      | some j2 =>
        rw [hval, hm]
        obtain ⟨hlt, hg⟩ := maxDelimPos_some_spec delim _ _ j2 hm
        exact ⟨hlt, hg, maxDelimPos_maximal delim _ _ j2 hm j hj hget⟩

/-- Witness for C2 on the spec's case-sensitivity scenario: on a
case-insensitive platform the strings match through the second separator. -/
theorem commonBaseIndex_spec_witness :
    commonBaseIndex false ("/A/b".toList) ("/a/B".toList) '/' none <
        lcpLength (caseFolded false none ("/A/b".toList))
          (caseFolded false none ("/a/B".toList)) ∧
      (caseFolded false none ("/A/b".toList)).get?
          (commonBaseIndex false ("/A/b".toList) ("/a/B".toList) '/' none) =
        some '/' ∧
      2 ≤ commonBaseIndex false ("/A/b".toList) ("/a/B".toList) '/' none :=
  ((commonBaseIndex_spec false ("/A/b".toList) ("/a/B".toList) '/' none).2
    (by decide) (by decide)).2 2 (by decide) (by decide)

/-! Embedding of `isDescendent` and `isChild`. -/

/-- Model of a parsed VS Code URI: the components `isDescendent` inspects. -/
structure Uri where
  scheme : List Char
  authority : List Char
  path : List Char
deriving DecidableEq

/-- Argument of `isDescendent` and `isChild`: a plain path string or a URI. -/
inductive PathOrUri
  | str (s : List Char)
  | uri (u : Uri)
deriving DecidableEq

/-- Leading-slash enforcement: a string whose first character is not a slash
gets one prepended (an empty string becomes a single slash). -/
def enforceSlash (l : List Char) : List Char :=
  if l.head? = some '/' then l else '/' :: l

/-- Trailing-separator guarantee used by the final comparison of
`isDescendent`: the base is used as-is when it already ends with a slash,
otherwise a slash is appended. -/
def ensureTrailingSlash (l : List Char) : List Char :=
  if l.getLast? = some '/' then l else l ++ ['/']

/-- Embedding of `isDescendent`: string arguments are normalized and
leading-slash enforced; the path must start with the base followed by a
separator unless the base path has length one; URI arguments additionally
require equal scheme and authority when both sides are URIs. -/
def isDescendent (isWin : Bool) (p b : PathOrUri) : Bool :=
  match b, p with
  | .str bs, .str ps =>
    let bn := enforceSlash (normalizePath isWin bs)
    let pn := enforceSlash (normalizePath isWin ps)
    bn.length = 1 || (ensureTrailingSlash bn).isPrefixOf pn
  | .str bs, .uri pu =>
    let bn := enforceSlash (normalizePath isWin bs)
    bn.length = 1 || (ensureTrailingSlash bn).isPrefixOf pu.path
  | .uri bu, .str ps =>
    let pn := enforceSlash (normalizePath isWin ps)
    bu.path.length = 1 || (ensureTrailingSlash bu.path).isPrefixOf pn
  | .uri bu, .uri pu =>
    bu.scheme = pu.scheme && bu.authority = pu.authority &&
      (bu.path.length = 1 || (ensureTrailingSlash bu.path).isPrefixOf pu.path)

/-- Embedding of the string-path, string-base branch of `isChild`: the base
gets a leading slash, the pair must satisfy `isDescendent`, and the part of
the raw path after the base (and its separator) must split into exactly one
segment. -/
def isChild (isWin : Bool) (p base : List Char) : Bool :=
  let b := if base.head? = some '/' then base else '/' :: base
  isDescendent isWin (.str p) (.str b) &&
    ((p.drop (b.length + (if b.getLast? = some '/' then 0 else 1))).splitOn '/').length = 1

/-- Number of path segments of `p` beyond the base `b`: the remainder of `p`
after `b` and its trailing separator, split at separators. -/
def segmentsBeyond (p b : List Char) : Nat :=
  ((p.drop (b.length + (if b.getLast? = some '/' then 0 else 1))).splitOn '/').length

theorem enforceSlash_head (l : List Char) : (enforceSlash l).head? = some '/' := by
  unfold enforceSlash
  split_ifs with hl
  · exact hl
  · rfl

theorem head_slash_length_one (l : List Char) (h : l.head? = some '/') :
    l.length = 1 ↔ l = ['/'] := by
  cases l with
  | nil => simp at h
  | cons a t =>
    simp only [List.head?_cons, Option.some_inj] at h
    subst h
    cases t <;> simp

/-- C4: characterization of `isDescendent` over all four argument shapes.
String arguments are compared after normalization and leading-slash
enforcement; the result is true iff the base is the root `"/"` or the path
starts with the base followed by a separator, and a URI base/path pair also
requires equal scheme and authority. URI paths are assumed to begin with a
slash, as VS Code produces them. -/
theorem isDescendent_spec (isWin : Bool) (s b : List Char) (u v : Uri)
    (hv : v.path.head? = some '/') :
    (isDescendent isWin (.str s) (.str b) = true ↔
      (enforceSlash (normalizePath isWin b) = ['/'] ∨
        (ensureTrailingSlash (enforceSlash (normalizePath isWin b))).isPrefixOf
          (enforceSlash (normalizePath isWin s)) = true)) ∧
    (isDescendent isWin (.uri u) (.str b) = true ↔
      (enforceSlash (normalizePath isWin b) = ['/'] ∨
        (ensureTrailingSlash (enforceSlash (normalizePath isWin b))).isPrefixOf
          u.path = true)) ∧
    (isDescendent isWin (.str s) (.uri v) = true ↔
      (v.path = ['/'] ∨
        (ensureTrailingSlash v.path).isPrefixOf
          (enforceSlash (normalizePath isWin s)) = true)) ∧
    (isDescendent isWin (.uri u) (.uri v) = true ↔
      (u.scheme = v.scheme ∧ u.authority = v.authority ∧
        (v.path = ['/'] ∨ (ensureTrailingSlash v.path).isPrefixOf u.path = true))) := by
  refine ⟨?_, ?_, ?_, ?_⟩
  · simp only [isDescendent, Bool.or_eq_true, decide_eq_true_eq]
    rw [head_slash_length_one _ (enforceSlash_head _)]
  · simp only [isDescendent, Bool.or_eq_true, decide_eq_true_eq]
    rw [head_slash_length_one _ (enforceSlash_head _)]
  · simp only [isDescendent, Bool.or_eq_true, decide_eq_true_eq]
    rw [head_slash_length_one _ hv]
  · simp only [isDescendent, Bool.or_eq_true, Bool.and_eq_true, decide_eq_true_eq]
    rw [head_slash_length_one _ hv]
    tauto

/-- Witness for the C4 characterization on the spec's scenario inputs. -/
theorem isDescendent_spec_witness :
    (isDescendent false (.str ("/repo/src/a.ts".toList)) (.str ("/repo".toList)) = true ↔
      (enforceSlash (normalizePath false ("/repo".toList)) = ['/'] ∨
        (ensureTrailingSlash (enforceSlash (normalizePath false ("/repo".toList)))).isPrefixOf
          (enforceSlash (normalizePath false ("/repo/src/a.ts".toList))) = true)) ∧
    isDescendent false (.str ("/repo/src/a.ts".toList)) (.str ("/repo".toList)) = true :=
  ⟨(isDescendent_spec false ("/repo/src/a.ts".toList) ("/repo".toList)
      ⟨[], [], ['/']⟩ ⟨[], [], ['/']⟩ (by decide)).1,
    by decide⟩

/-- C3 counterexample: for a base that does not already start with a slash,
`isChild` prepends a raw slash before descending, so a backslash-prefixed
base disagrees with the claim: here `isChild` is false although
`isDescendent` holds and the path has exactly one segment beyond the base. -/
theorem isChild_unslashed_base_cex :
    isChild false ("/a/x".toList) ("\\a".toList) = false ∧
      isDescendent false (.str ("/a/x".toList)) (.str ("\\a".toList)) = true ∧
      segmentsBeyond ("/a/x".toList) ("\\a".toList) = 1 := by decide

/-- C3 (amended): for every base string that begins with a forward slash,
`isChild(p, base)` holds iff `isDescendent(p, base)` holds and `p` has
exactly one path segment beyond `base`; the claim's four concrete examples
hold on any platform. -/
theorem isChild_iff_descendent_one_segment :
    (∀ (isWin : Bool) (p base : List Char), base.head? = some '/' →
      (isChild isWin p base = true ↔
        (isDescendent isWin (.str p) (.str base) = true ∧
          segmentsBeyond p base = 1))) ∧
    (∀ isWin, isChild isWin ("/a/b/c".toList) ("/a/b".toList) = true) ∧
    (∀ isWin, isChild isWin ("/a/b/c/d".toList) ("/a/b".toList) = false) ∧
    (∀ isWin, isChild isWin ("/repo/src".toList) ("/repo".toList) = true) ∧
    (∀ isWin, isChild isWin ("/repo/src/a.ts".toList) ("/repo".toList) = false) := by
  refine ⟨?_, ?_, ?_, ?_, ?_⟩
  · intro isWin p base hbase
    unfold isChild segmentsBeyond
    rw [if_pos hbase]
    simp [Bool.and_eq_true]
  · intro isWin
    cases isWin <;> decide
  · intro isWin
    cases isWin <;> decide
  · intro isWin
    cases isWin <;> decide
  · intro isWin
    cases isWin <;> decide

/-- Witness for the amended C3 theorem at a concrete input. -/
theorem isChild_iff_witness :
    isChild false ("/a/b/c".toList) ("/a/b".toList) = true ↔
      (isDescendent false (.str ("/a/b/c".toList)) (.str ("/a/b".toList)) = true ∧
        segmentsBeyond ("/a/b/c".toList) ("/a/b".toList) = 1) :=
  isChild_iff_descendent_one_segment.1 false ("/a/b/c".toList) ("/a/b".toList) (by decide)

/-! Embedding of `hasSchemeRegex`, `getScheme`, `maybeUri`, `isAbsolute`. -/

/-- First character class of `hasSchemeRegex`: an ASCII letter. -/
def isAsciiLetter (c : Char) : Bool := ('a' ≤ c && c ≤ 'z') || ('A' ≤ c && c ≤ 'Z')

/-- Remaining character class of `hasSchemeRegex`: word characters, plus,
dot and hyphen. -/
def isSchemeRestChar (c : Char) : Bool :=
  c.isAlphanum || c = '_' || c = '+' || c = '.' || c = '-'

/-- Embedding of `getScheme`: the capture of `hasSchemeRegex`, an ASCII
letter followed by one or more scheme characters and a colon. -/
def getScheme (l : List Char) : Option (List Char) :=
  match l with
  | [] => none
  | c :: rest =>
    if isAsciiLetter c = true ∧ rest.takeWhile isSchemeRestChar ≠ [] ∧
        (rest.drop (rest.takeWhile isSchemeRestChar).length).head? = some ':' then
      some (c :: rest.takeWhile isSchemeRestChar)
    else none

/-- Embedding of `maybeUri`: the test of the same `hasSchemeRegex`. -/
def maybeUri (l : List Char) : Bool := (getScheme l).isSome

/-- Windows path-separator class used by the OS-absolute test. -/
def isWinSep (c : Char) : Bool := c = '/' || c = '\\'

/-- Modelled from the spec: the OS-absolute check is Node's
`path.isAbsolute`, which is external to this repository. On Windows a path
is absolute when it starts with a separator or with a drive letter, a colon
and a separator; on POSIX when it starts with a forward slash. -/
def osIsAbsolute (isWin : Bool) (l : List Char) : Bool :=
  if isWin then
    match l with
    | [] => false
    | c :: rest =>
      isWinSep c ||
        (isAsciiLetter c &&
          match rest with
          | d :: e :: _ => d = ':' && isWinSep e
          | _ => false)
  else
    match l with
    | c :: _ => c = '/'
    | [] => false

/-- Embedding of `isAbsolute`: not a URI-with-scheme and OS-absolute. -/
def isAbsolute (isWin : Bool) (l : List Char) : Bool :=
  !maybeUri l && osIsAbsolute isWin l

/-! Embedding of the vsls (collaborative-session) prefix utilities. -/

/-- Character class `[/|\]` of the vsls prefix regex. -/
def isVslsSep (c : Char) : Bool := c = '/' || c = '|' || c = '\\'

/-- End-of-prefix test `(?:[/|\]|$)`: the list is empty or starts with a
vsls separator. -/
def sepOrEnd : List Char → Bool
  | [] => true
  | c :: _ => isVslsSep c

/-- Alternative `external` of the vsls prefix regex, followed by a separator
or the end of the string. -/
def isExternalTail (l : List Char) : Bool :=
  List.isPrefixOf ("external".toList) l && sepOrEnd (l.drop 8)

/-- Tail of the vsls prefix regex after `~`: a nonempty digit run or the
word `external`, followed by a separator or the end. -/
def vslsTail (l : List Char) : Bool :=
  (!(l.takeWhile Char.isDigit).isEmpty &&
      sepOrEnd (l.drop (l.takeWhile Char.isDigit).length))
    || isExternalTail l

/-- Embedding of `hasVslsPrefix` (`vslsHasPrefixRegex`): a separator, a
tilde, then digits or `external`, then a separator or the end. -/
def hasVslsPrefix : List Char → Bool
  | c :: t :: rest => isVslsSep c && t = '~' && vslsTail rest
  | _ => false

/-- Path body appended after the `/~0` marker: the normalized path with a
leading slash guaranteed. -/
def vslsBody (isWin : Bool) (p : List Char) : List Char :=
  if (normalizePath isWin p).head? = some '/' then normalizePath isWin p
  else '/' :: normalizePath isWin p

/-- Embedding of the string branch of `addVslsPrefixIfNeeded`: URI strings
are parsed and handled as URIs (modelled as `none`); already-prefixed paths
are returned unchanged; otherwise the path is normalized and `/~0` plus a
leading slash are prepended. -/
def addVslsPrefixIfNeeded (isWin : Bool) (p : List Char) : Option (List Char) :=
  if maybeUri p then none
  else if hasVslsPrefix p then some p
  else some ('/' :: '~' :: '0' :: vslsBody isWin p)

theorem vslsBody_head (isWin : Bool) (p : List Char) :
    (vslsBody isWin p).head? = some '/' := by
  unfold vslsBody
  split_ifs with h1
  · exact h1
  · rfl

theorem hasVslsPrefix_marker (s : List Char) (h : s.head? = some '/') :
    hasVslsPrefix ('/' :: '~' :: '0' :: s) = true := by
  cases s with
  | nil => simp at h
  | cons a t =>
    simp only [List.head?_cons, Option.some_inj] at h
    subst h
    have hd0 : Char.isDigit '0' = true := by decide
    have hds : Char.isDigit '/' = false := by decide
    simp [ hasVslsPrefix, vslsTail, sepOrEnd, isVslsSep, isExternalTail,
      List.takeWhile_cons, hd0, hds, List.isPrefixOf]

theorem getScheme_cons (c : Char) (rest : List Char) :
    getScheme (c :: rest) =
      if isAsciiLetter c = true ∧ rest.takeWhile isSchemeRestChar ≠ [] ∧
          (rest.drop (rest.takeWhile isSchemeRestChar).length).head? = some ':' then
        some (c :: rest.takeWhile isSchemeRestChar)
      else none := rfl

theorem maybeUri_head_nonletter (c : Char) (t : List Char)
    (hc : isAsciiLetter c = false) : maybeUri (c :: t) = false := by
  unfold maybeUri
  rw [getScheme_cons, if_neg]
  · rfl
  · intro hcond
    rw [hc] at hcond
    exact absurd hcond.1 (by simp)

/-- C7: for every non-URI path string, adding the vsls prefix yields a path
recognized by `hasVslsPrefix`; an already-prefixed path is returned
unchanged, and the operation is idempotent. -/
theorem vslsPrefix_roundtrip (isWin : Bool) (p : List Char)
    (h : maybeUri p = false) :
    ∃ r, addVslsPrefixIfNeeded isWin p = some r ∧
      hasVslsPrefix r = true ∧
      addVslsPrefixIfNeeded isWin r = some r ∧
      ( hasVslsPrefix p = true → r = p) := by
  by_cases hv : hasVslsPrefix p = true
  · refine ⟨p, ?_, hv, ?_, fun _ => rfl⟩
    · unfold addVslsPrefixIfNeeded
      rw [if_neg (by simp [h]), if_pos hv]
    · unfold addVslsPrefixIfNeeded
      rw [if_neg (by simp [h]), if_pos hv]
  · have hmark : hasVslsPrefix ('/' :: '~' :: '0' :: vslsBody isWin p) = true :=
      hasVslsPrefix_marker _ (vslsBody_head isWin p)
    refine ⟨'/' :: '~' :: '0' :: vslsBody isWin p, ?_, hmark, ?_, ?_⟩
    · unfold addVslsPrefixIfNeeded
      rw [if_neg (by simp [h]), if_neg hv]
    · unfold addVslsPrefixIfNeeded
      rw [if_neg (by simp [maybeUri_head_nonletter '/' _ (by decide)]),
        if_pos hmark]
    · intro hp
      exact absurd hp hv

/-- Witness for C7 at a concrete non-URI input. -/
theorem vslsPrefix_roundtrip_witness :
    ∃ r, addVslsPrefixIfNeeded false ("x".toList) = some r ∧
      hasVslsPrefix r = true ∧
      addVslsPrefixIfNeeded false r = some r ∧
      ( hasVslsPrefix ("x".toList) = true → r = ("x".toList)) :=
  vslsPrefix_roundtrip false ("x".toList) (by decide)

/-! Theorems about scheme detection and absoluteness. -/

theorem takeWhile_append_all (pr : Char → Bool) (r l : List Char)
    (h : ∀ x ∈ r, pr x = true) :
    (r ++ l).takeWhile pr = r ++ l.takeWhile pr := by
  induction r with
  | nil => rfl
  | cons a t ih =>
    have ha : pr a = true := h a (List.mem_cons_self a t)
    simp only [List.cons_append, List.takeWhile_cons, ha, if_true]
    rw [ih (fun x hx => h x (List.mem_cons_of_mem _ hx))]

theorem drop_takeWhile_length (pr : Char → Bool) (l : List Char) :
    l.drop (l.takeWhile pr).length = l.dropWhile pr := by
  induction l with
  | nil => rfl
  | cons a t ih =>
    by_cases ha : pr a = true
    · simp only [List.takeWhile_cons, ha, if_true, List.dropWhile_cons, List.length_cons,
        List.drop_succ_cons]
      exact ih
    · simp only [List.takeWhile_cons, List.dropWhile_cons, ha]
      simp

theorem mem_takeWhile_pred (pr : Char → Bool) (l : List Char) (x : Char)
    (hx : x ∈ l.takeWhile pr) : pr x = true := by
  induction l with
  | nil => simp at hx
  | cons a t ih =>
    by_cases ha : pr a = true
    · simp only [List.takeWhile_cons, ha, if_true] at hx
      rcases List.mem_cons.mp hx with heq | hmem
      · rw [heq]
        exact ha
      · exact ih hmem
    · simp only [List.takeWhile_cons, ha] at hx
      simp at hx

theorem maybeUri_iff_decomp (p : List Char) :
    maybeUri p = true ↔
      ∃ c r t, p = c :: (r ++ ':' :: t) ∧ isAsciiLetter c = true ∧ r ≠ [] ∧
        ∀ x ∈ r, isSchemeRestChar x = true := by
  constructor
  · intro h
    cases p with
    | nil => simp [maybeUri, getScheme] at h
    | cons c rest =>
      unfold maybeUri at h
      rw [getScheme_cons] at h
      split_ifs at h with hcond
      · obtain ⟨hletter, hne, hcolon⟩ := hcond
        rw [drop_takeWhile_length] at hcolon
        rcases hd : rest.dropWhile isSchemeRestChar with _ | ⟨d, ds⟩
        · rw [hd] at hcolon
          simp at hcolon
        · rw [hd] at hcolon
          simp only [List.head?_cons, Option.some_inj] at hcolon
          refine ⟨c, rest.takeWhile isSchemeRestChar, ds, ?_, hletter, hne, ?_⟩
          · have hsplit := List.takeWhile_append_dropWhile (p := isSchemeRestChar) (l := rest)
            rw [hd, hcolon] at hsplit
            rw [hsplit]
          · exact fun x hx => mem_takeWhile_pred _ _ x hx
      · simp at h
  · rintro ⟨c, r, t, hp, hletter, hne, hall⟩
    subst hp
    unfold maybeUri
    rw [getScheme_cons]
    have htw : (r ++ ':' :: t).takeWhile isSchemeRestChar = r := by
      rw [takeWhile_append_all _ _ _ hall]
      simp only [List.takeWhile_cons]
      rw [if_neg (by decide : ¬ (isSchemeRestChar ':' = true))]
      simp
    rw [if_pos]
    · rfl
    · refine ⟨hletter, by rw [htw]; exact hne, ?_⟩
      rw [htw, List.drop_left]
      rfl

/-- C8: `isAbsolute` is the conjunction of not being a URI-with-scheme and
being OS-absolute; any string with a leading scheme token (an ASCII letter,
one or more word/plus/dot/hyphen characters, then a colon) is never
absolute. -/
theorem isAbsolute_spec (isWin : Bool) (p : List Char) :
    (isAbsolute isWin p = (!maybeUri p && osIsAbsolute isWin p)) ∧
    (maybeUri p = true → isAbsolute isWin p = false) ∧
    (maybeUri p = true ↔
      ∃ c r t, p = c :: (r ++ ':' :: t) ∧ isAsciiLetter c = true ∧ r ≠ [] ∧
        ∀ x ∈ r, isSchemeRestChar x = true) := by
  refine ⟨rfl, ?_, maybeUri_iff_decomp p⟩
  intro h
  unfold isAbsolute
  rw [h]
  rfl

/-- Witness for C8: a scheme-bearing string is not absolute on either
platform. -/
theorem isAbsolute_spec_witness :
    isAbsolute true ("http://x".toList) = false ∧
      isAbsolute false ("http://x".toList) = false :=
  ⟨(isAbsolute_spec true ("http://x".toList)).2.1 (by decide),
    (isAbsolute_spec false ("http://x".toList)).2.1 (by decide)⟩

/-- C10: `getScheme` succeeds exactly when `maybeUri` holds (they share
`hasSchemeRegex`); a recognized scheme has at least two characters before
the colon and is a prefix of the input followed by a colon; therefore a
drive-letter reference such as `"c:"` or `"C:/repo"` is never classified as
having a scheme, and drive-letter paths stay eligible as absolute paths. -/
theorem scheme_detection_spec :
    (∀ p : List Char, (getScheme p).isSome = maybeUri p) ∧
    (∀ p s, getScheme p = some s → 2 ≤ s.length ∧ (s ++ [':']) <+: p) ∧
    getScheme ("c:".toList) = none ∧
    maybeUri ("c:".toList) = false ∧
    getScheme ("C:/repo".toList) = none ∧
    maybeUri ("C:/repo".toList) = false ∧
    isAbsolute true ("C:/repo".toList) = true := by
  refine ⟨fun p => rfl, ?_, by decide, by decide, by decide, by decide, by decide⟩
  intro p s hs
  cases p with
  | nil => simp [getScheme] at hs
  | cons c rest =>
    rw [getScheme_cons] at hs
    split_ifs at hs with hcond
    · obtain ⟨hletter, hne, hcolon⟩ := hcond
      simp only [Option.some_inj] at hs
      constructor
      · rw [← hs]
        simp only [List.length_cons]
        have : 1 ≤ (rest.takeWhile isSchemeRestChar).length := by
          rcases he : rest.takeWhile isSchemeRestChar with _ | ⟨d, ds⟩
          · exact absurd he hne
          · simp
        omega
      · rw [drop_takeWhile_length] at hcolon
        rcases hd : rest.dropWhile isSchemeRestChar with _ | ⟨d, ds⟩
        · rw [hd] at hcolon
          simp at hcolon
        · rw [hd] at hcolon
          simp only [List.head?_cons, Option.some_inj] at hcolon
          have hsplit := List.takeWhile_append_dropWhile (p := isSchemeRestChar) (l := rest)
          rw [hd, hcolon] at hsplit
          refine ⟨ds, ?_⟩
          rw [← hs]
          simp only [List.cons_append, List.append_assoc, List.singleton_append,
            List.nil_append]
          rw [hsplit]

/-- Witness for C10 applied at a concrete recognized scheme. -/
theorem scheme_detection_witness :
    2 ≤ ("http".toList).length ∧ (("http".toList) ++ [':']) <+: ("http://x".toList) :=
  scheme_detection_spec.2.1 ("http://x".toList) ("http".toList) (by decide)

/-! Embedding of the sub-provider proxy of `gitProvider.ts`. -/

/-- A member of a sub-provider object: either a method, modelled as a
function from an argument list and a state to a result and a new state
(side effects are explicit state transitions), or a plain data property. -/
inductive Member (σ α : Type)
  | func (f : List α → σ → α × σ)
  | value (v : α)

/-- A sub-provider object: a mapping from property names to members. -/
def SubProvider (σ α : Type) := String → Member σ α

/-- Embedding of `createSubProviderProxyForRepo`: the proxy's `get` wraps
every function member so the call receives the repository path prepended to
the caller's arguments, and returns non-function members unchanged. -/
def createSubProviderProxyForRepo {σ α : Type} (target : SubProvider σ α)
    (rp : α) : SubProvider σ α :=
  fun prop =>
    match target prop with
    | .func f => .func (fun args s => f (rp :: args) s)
    | .value v => .value v

/-- Method invocation on a sub-provider: applies the member when it is a
function, returning its result and the resulting state. -/
def invokeMethod {σ α : Type} (sp : SubProvider σ α) (prop : String)
    (args : List α) (s : σ) : Option (α × σ) :=
  match sp prop with
  | .func f => some (f args s)
  | .value _ => none

/-- Plain property access on a sub-provider: the value of a non-function
member. -/
def getValueProp {σ α : Type} (sp : SubProvider σ α) (prop : String) : Option α :=
  match sp prop with
  | .func _ => none
  | .value v => some v

/-- C5: invoking any method on the bound view is observably equivalent to
invoking the underlying sub-provider's method once with the repository path
prepended to the arguments — same result and same state effect for every
starting state — and non-function property access passes through unchanged. -/
theorem subProviderProxy_transparent {σ α : Type} (target : SubProvider σ α)
    (rp : α) (prop : String) (args : List α) (s : σ) :
    invokeMethod (createSubProviderProxyForRepo target rp) prop args s =
        invokeMethod target prop (rp :: args) s ∧
      getValueProp (createSubProviderProxyForRepo target rp) prop =
        getValueProp target prop := by
  unfold invokeMethod getValueProp createSubProviderProxyForRepo
  cases target prop <;> exact ⟨rfl, rfl⟩

/-! Embedding of the cache-key vocabulary of `gitProvider.ts`. -/

/-- The `GitCaches` union type: the eight cache-key names. -/
inductive GitCaches
  | branches
  | contributors
  | providers
  | remotes
  | stashes
  | status
  | tags
  | worktrees
deriving DecidableEq

/-- String name of each cache key, as written in the source union type. -/
def GitCaches.name : GitCaches → String
  | .branches => "branches"
  | .contributors => "contributors"
  | .providers => "providers"
  | .remotes => "remotes"
  | .stashes => "stashes"
  | .status => "status"
  | .tags => "tags"
  | .worktrees => "worktrees"

/-- The whole cache-key vocabulary in source order. -/
def allGitCaches : List GitCaches :=
  [.branches, .contributors, .providers, .remotes, .stashes, .status, .tags,
    .worktrees]

/-- Embedding of `gitRepositoryCacheKeys`: the repository-scoped subset. -/
def gitRepositoryCacheKeys : List GitCaches := [.branches, .remotes]

/-- C9: the cache-key vocabulary is exactly the eight enumerated names, with
no duplicates and nothing missing, and the repository-scoped subset is
exactly the pair of keys named branches and remotes. -/
theorem gitCaches_vocabulary :
    allGitCaches.map GitCaches.name =
        ["branches", "contributors", "providers", "remotes", "stashes",
          "status", "tags", "worktrees"] ∧
      allGitCaches.Nodup ∧
      (∀ c : GitCaches, c ∈ allGitCaches) ∧
      gitRepositoryCacheKeys.map GitCaches.name = ["branches", "remotes"] ∧
      (∀ c : GitCaches,
        c ∈ gitRepositoryCacheKeys ↔ (c = .branches ∨ c = .remotes)) := by
  refine ⟨rfl, ?_, ?_, rfl, ?_⟩
  · simp [allGitCaches]
  · intro c
    cases c <;> simp [allGitCaches]
  · intro c
    cases c <;> simp [gitRepositoryCacheKeys]

end GitLens

